import Mathlib

/-!
# Verification of the LZ4 block codec specification (aocl-compression)

The repository excerpt under verification ships the public header
`src/algos/lz4/lz4.h`, which fixes the API contracts, the compile-time
macros (`LZ4_MAX_INPUT_SIZE`, `LZ4_COMPRESSBOUND`,
`LZ4_DECODER_RING_BUFFER_SIZE`) and the documented behaviour of
`LZ4_compress_default`, `LZ4_compress_fast`, `LZ4_compressBound`,
`LZ4_decompress_safe`, `LZ4_decompress_safe_partial` and
`LZ4_decoderRingBufferSize`.  The implementation file `lz4.c` is not part
of the excerpt, so the block codec itself is modelled from the
specification (sections 3, 4.1, 4.2, 4.3 and 6 of spec.md: token layout,
extension-byte chains, little-endian 2-byte offsets, window of 65535,
minimum match length 4, trailing literal-only sequence with a safety
margin, hash-accelerated greedy match finding with acceleration-scaled
skipping, bounds-checked decoding).  Buffers are byte lists; `none`
stands for the failure return (`0` for compression, a negative value for
decompression), `some out` for a successful return whose value is the
number of bytes written, i.e. `out.length`.
-/

/-- `LZ4_MAX_INPUT_SIZE` from lz4.h line 237: `0x7E000000` (2 113 929 216). -/
def LZ4_MAX_INPUT_SIZE : Nat := 0x7E000000

/-- The macro `LZ4_COMPRESSBOUND(isize)` from lz4.h line 246:
`((unsigned)(isize) > (unsigned)LZ4_MAX_INPUT_SIZE ? 0 : (isize) + ((isize)/255) + 16)`.
The argument is a C `int`; the cast to `unsigned` is modelled by `% 2^32`
(two's complement wrap), and the division is only reached for
non-negative arguments, where C truncating division agrees with `Int`
division. -/
def LZ4_COMPRESSBOUND (isize : Int) : Int :=
  if (2113929216 : Int) < isize % 4294967296 then 0 else isize + isize / 255 + 16

/-- Modelled from the spec: the function `LZ4_compressBound` lives in the
absent `lz4.c`.  Per lz4.h lines 253-272 it returns the worst-case
compressed size (the spec gives the formula `n + n/255 + 16`) and `0`
when the input size is incorrect (too large or negative), exactly the
value of the macro `LZ4_COMPRESSBOUND`. -/
def LZ4_compressBound (inputSize : Int) : Int :=
  LZ4_COMPRESSBOUND inputSize

/-- One LZ4 sequence (spec section 3): a literal run followed by a match
described by a back-reference offset and a match length. -/
structure LZSeq where
  lits : List Nat
  off : Nat
  mlen : Nat

/-- Byte-by-byte match expansion (spec section 4.3): append `len` bytes,
each copied from `off` positions behind the current end of the output.
Copying one byte at a time makes the overlapping case (`off < len`)
reproduce short repeating patterns, as the spec requires. -/
def matchCopy : List Nat → Nat → Nat → List Nat
  | hist, _, 0 => hist
  | hist, off, len + 1 => matchCopy (hist ++ [hist.getD (hist.length - off) 0]) off len

/-- Semantics of one sequence: emit the literal run, then expand the match. -/
def execSeq (out : List Nat) (s : LZSeq) : List Nat :=
  matchCopy (out ++ s.lits) s.off s.mlen

/-- Semantics of a list of sequences, in order. -/
def execSeqs (out : List Nat) : List LZSeq → List Nat
  | [] => out
  | s :: rest => execSeqs (execSeq out s) rest

/-- Total number of output bytes produced by a list of sequences. -/
def seqsLen : List LZSeq → Nat
  | [] => 0
  | s :: rest => s.lits.length + s.mlen + seqsLen rest

/-- Total number of literal bytes in a list of sequences. -/
def litsLen : List LZSeq → Nat
  | [] => 0
  | s :: rest => s.lits.length + litsLen rest

/-- Length of the longest common prefix of two byte lists; this is the
forward byte comparison of spec section 4.1. -/
def commonPrefixLen : List Nat → List Nat → Nat
  | a :: as, b :: bs => if a = b then commonPrefixLen as bs + 1 else 0
  | _, _ => 0

/-- Modelled from the spec: the hash of the 4 bytes at position `pos`
(spec section 4.1, hash index over 4-byte sequences; the multiplicative
hash `(v * 2654435761) >> (32 - 12)` is the classical LZ4 choice for a
`2^12`-slot table). -/
def hash4 (src : List Nat) (pos : Nat) : Nat :=
  ((src.getD pos 0 + 256 * src.getD (pos + 1) 0 + 65536 * src.getD (pos + 2) 0 +
      16777216 * src.getD (pos + 3) 0) * 2654435761) % 4294967296 / 1048576

/-- Modelled from the spec: the greedy match-finding loop of the absent
`lz4.c` (spec sections 4.1 and 4.2).  State: current position `pos`, the
start `anchor` of the pending literal run, the hash table `tbl` mapping a
hash to the candidate prior position, and the skip counter `nb`
(initially `acceleration * 64`; each miss advances the position by
`nb / 64` and increments `nb`, which is the acceleration-scaled growing
step of the spec).  A candidate is accepted when it is a prior position,
within the 65535-byte window, and the forward byte comparison yields a
run of at least 4 bytes; the match is truncated so that at least 5
trailing bytes remain literal-only, and no match is attempted within the
last 12 bytes, so the final sequence of a block is always literal-only
(spec sections 3 and 4.2).  The slot of every processed position is
refreshed to that position.  Returns the sequence list and the final
literal run. -/
def parseLoop (src : List Nat) (accel : Nat) :
    Nat → Nat → Nat → (Nat → Option Nat) → Nat → List LZSeq × List Nat
  | 0, _, anchor, _, _ => ([], src.drop anchor)
  | fuel + 1, pos, anchor, tbl, nb =>
    if src.length < pos + 12 then ([], src.drop anchor)
    else
      let h := hash4 src pos
      let tbl2 : Nat → Option Nat := fun x => if x = h then some pos else tbl x
      match tbl h with
      | none => parseLoop src accel fuel (pos + nb / 64) anchor tbl2 (nb + 1)
      | some cand =>
        let cpl := commonPrefixLen (src.drop cand) (src.drop pos)
        if cand < pos ∧ pos - cand ≤ 65535 ∧ 4 ≤ cpl then
          let mlen := min cpl (src.length - 5 - pos)
          let rest := parseLoop src accel fuel (pos + mlen) (pos + mlen) tbl2 (accel * 64)
          (⟨(src.drop anchor).take (pos - anchor), pos - cand, mlen⟩ :: rest.1, rest.2)
        else parseLoop src accel fuel (pos + nb / 64) anchor tbl2 (nb + 1)

/-- Modelled from the spec: parse an input buffer into sequences plus a
final literal run, starting from a cleared hash table (spec section 3,
table-addressing mode `Cleared` for a one-shot compression). -/
def parse (src : List Nat) (accel : Nat) : List LZSeq × List Nat :=
  parseLoop src accel (src.length + 1) 0 0 (fun _ => none) (accel * 64)

/-- Extension-byte chain for a residual length `k` (spec section 6): each
byte contributes up to 254 and the value 255 continues the chain; a final
byte below 255 ends it. -/
def extBytes (k : Nat) : List Nat :=
  if h : k < 255 then [k] else 255 :: extBytes (k - 255)
termination_by k
decreasing_by omega

/-- Length-field encoding for one token nibble (spec section 6): values
below 15 are stored in the nibble itself and need no extension bytes;
larger values store 15 in the nibble and continue with `extBytes (k - 15)`. -/
def writeLSIC (k : Nat) : List Nat :=
  if k < 15 then [] else extBytes (k - 15)

/-- Modelled from the spec: serialization of one sequence (spec sections
4.2 and 6): token byte with saturating nibbles, literal-length extension
bytes, the literal run, the 2-byte little-endian offset, and the
match-length extension bytes (the stored match-length code is
`mlen - 4`). -/
def serSeq (s : LZSeq) : List Nat :=
  (min s.lits.length 15 * 16 + min (s.mlen - 4) 15) ::
    (writeLSIC s.lits.length ++
      (s.lits ++ ([s.off % 256, s.off / 256] ++ writeLSIC (s.mlen - 4))))

/-- Modelled from the spec: serialization of the final literal-only
sequence (spec sections 3 and 6: no offset or match fields follow). -/
def serFinal (fin : List Nat) : List Nat :=
  (min fin.length 15 * 16) :: (writeLSIC fin.length ++ fin)

/-- Serialization of a whole block: the sequences then the final literals. -/
def serAll : List LZSeq → List Nat → List Nat
  | [], fin => serFinal fin
  | s :: rest, fin => serSeq s ++ serAll rest fin

/-- Modelled from the spec: the encoded block for a given input and
acceleration. -/
def compressedBytes (src : List Nat) (accel : Nat) : List Nat :=
  serAll (parse src accel).1 (parse src accel).2

/-- `LZ4_ACCELERATION_DEFAULT`, documented in lz4.h line 282 as `1`. -/
def LZ4_ACCELERATION_DEFAULT : Int := 1

/-- `LZ4_ACCELERATION_MAX`, documented in lz4.h line 283 as `65537`. -/
def LZ4_ACCELERATION_MAX : Int := 65537

/-- The acceleration clamp documented in lz4.h lines 282-283: values `<= 0`
are replaced by `LZ4_ACCELERATION_DEFAULT`, values above
`LZ4_ACCELERATION_MAX` saturate there. -/
def clampAccel (a : Int) : Int :=
  if a < 1 then LZ4_ACCELERATION_DEFAULT
  else if LZ4_ACCELERATION_MAX < a then LZ4_ACCELERATION_MAX else a

/-- Modelled from the spec: `LZ4_compress_fast` of the absent `lz4.c`
(lz4.h lines 274-294).  The acceleration is clamped on entry; inputs
larger than `LZ4_MAX_INPUT_SIZE` are unsupported and fail; if the encoded
block does not fit in `dstCapacity` the whole call fails and produces
nothing (`none` models the `0` return; spec sections 4.2 and 7,
`EncodingInfeasible`). -/
def LZ4_compress_fast (src : List Nat) (dstCapacity : Nat) (acceleration : Int) :
    Option (List Nat) :=
  if LZ4_MAX_INPUT_SIZE < src.length then none
  else if (compressedBytes src (clampAccel acceleration).toNat).length ≤ dstCapacity then
    some (compressedBytes src (clampAccel acceleration).toNat)
  else none

/-- `LZ4_compress_default` (lz4.h lines 170-196): identical to
`LZ4_compress_fast` with acceleration 1 (lz4.h line 286). -/
def LZ4_compress_default (src : List Nat) (dstCapacity : Nat) : Option (List Nat) :=
  LZ4_compress_fast src dstCapacity 1

/-- Read an extension-byte chain (spec section 6): bytes valued 255
continue the chain and contribute 255 each; a byte below 255 ends the
chain.  Fails (`none`) when the chain runs past the end of the source,
which the decoder treats as malformed input. -/
def readExt : List Nat → Option (Nat × List Nat)
  | [] => none
  | b :: r =>
    if b = 255 then
      match readExt r with
      | none => none
      | some (k, r2) => some (255 + k, r2)
    else some (b, r)

/-- Decode one length field from its token nibble `code` plus, when the
nibble is saturated at 15, the following extension chain. -/
def readLen (code : Nat) (l : List Nat) : Option (Nat × List Nat) :=
  if code < 15 then some (code, l)
  else
    match readExt l with
    | none => none
    | some (k, r) => some (15 + k, r)

/-- Read the 2-byte little-endian match offset (spec section 6); fails
when fewer than 2 bytes remain. -/
def offsetBytes : List Nat → Option (Nat × List Nat)
  | o0 :: o1 :: r => some (o0 + 256 * o1, r)
  | _ => none

/-- Modelled from the spec: the decoding loop of the absent `lz4.c`
(spec section 4.3, `LZ4_decompress_safe`, lz4.h lines 198-225).  State
machine `ReadToken -> CopyLiterals -> ReadOffsetAndExtension -> CopyMatch`;
before every read and write the remaining source bytes and the remaining
destination capacity are validated, and any violation -- a length
extension or literal run or offset field running past the source, an
offset of 0 or exceeding the available history, or a copy that would
exceed `cap` -- returns `none` (the negative error return) with no
further output.  A block ends when the source is exhausted exactly after
a literal run, so the final sequence is literal-only.  The fuel argument
only bounds the recursion; one token byte is consumed per iteration, so
`src.length + 1` iterations always suffice. -/
def decodeLoop : Nat → List Nat → List Nat → Nat → Option (List Nat)
  | 0, _, _, _ => none
  | _ + 1, [], _, _ => none
  | fuel + 1, t :: r, out, cap =>
    match readLen (t / 16) r with
    | none => none
    | some (L, r1) =>
      if r1.length < L then none
      else if cap < out.length + L then none
      else
        match r1.drop L with
        | [] => some (out ++ r1.take L)
        | r2 =>
          match offsetBytes r2 with
          | none => none
          | some (off, r3) =>
            if off = 0 then none
            else if (out ++ r1.take L).length < off then none
            else
              match readLen (t % 16) r3 with
              | none => none
              | some (mc, r4) =>
                if cap < (out ++ r1.take L).length + (mc + 4) then none
                else decodeLoop fuel r4 (matchCopy (out ++ r1.take L) off (mc + 4)) cap

/-- `LZ4_decompress_safe` (lz4.h lines 198-225): decode the block formed
by the first `compressedSize` bytes of `src` into a destination of
capacity `dstCapacity`.  `none` models the negative error return. -/
def LZ4_decompress_safe (src : List Nat) (compressedSize dstCapacity : Nat) :
    Option (List Nat) :=
  decodeLoop (compressedSize + 1) (src.take compressedSize) [] dstCapacity

/-- Modelled from the spec: the partial decoding loop of the absent
`lz4.c` (spec section 4.3, bounded/partial variant; lz4.h lines 396-434).
It performs the same validation as `decodeLoop` but stops decoding, even
mid-sequence, as soon as `target` output bytes have been produced, never
writing beyond `target`. -/
def partialLoop : Nat → List Nat → List Nat → Nat → Option (List Nat)
  | 0, _, _, _ => none
  | _ + 1, [], _, _ => none
  | fuel + 1, t :: r, out, target =>
    match readLen (t / 16) r with
    | none => none
    | some (L, r1) =>
      if r1.length < L then none
      else
        if target ≤ (out ++ r1.take L).length then some ((out ++ r1.take L).take target)
        else
          match r1.drop L with
          | [] => some (out ++ r1.take L)
          | r2 =>
            match offsetBytes r2 with
            | none => none
            | some (off, r3) =>
              if off = 0 then none
              else if (out ++ r1.take L).length < off then none
              else
                match readLen (t % 16) r3 with
                | none => none
                | some (mc, r4) =>
                  if target ≤ (out ++ r1.take L).length + (mc + 4) then
                    some ((matchCopy (out ++ r1.take L) off (mc + 4)).take target)
                  else partialLoop fuel r4 (matchCopy (out ++ r1.take L) off (mc + 4)) target

/-- `LZ4_decompress_safe_partial` (lz4.h lines 396-434): decode at most
`targetOutputSize` bytes of the block formed by the first `srcSize` bytes
of `src`.  Per note 3 of the header the destination capacity is only
relevant through `min targetOutputSize dstCapacity`, since decoding stops
writing at exactly the target. -/
def LZ4_decompress_safe_partial (src : List Nat)
    (srcSize targetOutputSize dstCapacity : Nat) : Option (List Nat) :=
  partialLoop (srcSize + 1) (src.take srcSize) [] (min targetOutputSize dstCapacity)

/-- The four malformed-input conditions of spec section 7
(`MalformedInput`) checked at the next sequence of the stream: a length
extension (or the literal run or offset field itself) implying more bytes
than remain in the source, an offset of 0, an offset exceeding the
available history, and a copy (literal or match) that would exceed the
destination capacity. -/
def stepMalformedB (src out : List Nat) (cap : Nat) : Bool :=
  match src with
  | [] => false
  | t :: r =>
    match readLen (t / 16) r with
    | none => true
    | some (L, r1) =>
      if r1.length < L then true
      else if cap < out.length + L then true
      else
        match r1.drop L with
        | [] => false
        | r2 =>
          match offsetBytes r2 with
          | none => true
          | some (off, r3) =>
            if off = 0 then true
            else if out.length + L < off then true
            else
              match readLen (t % 16) r3 with
              | none => true
              | some (mc, _) => decide (cap < out.length + L + (mc + 4))

/-- The macro `LZ4_DECODER_RING_BUFFER_SIZE(maxBlockSize)` from lz4.h
line 689: `65536 + 14 + maxBlockSize` (maxBlockSize presumed valid). -/
def LZ4_DECODER_RING_BUFFER_SIZE (maxBlockSize : Int) : Int :=
  65536 + 14 + maxBlockSize

/-- Modelled from the spec: the function `LZ4_decoderRingBufferSize` of
the absent `lz4.c` (lz4.h lines 664-685 and spec section 4.5): for a
valid `maxBlockSize` it returns the minimum ring buffer size
`65536 + 14 + maxBlockSize`, and `0` on an invalid (negative or
oversized) `maxBlockSize`. -/
def LZ4_decoderRingBufferSize (maxBlockSize : Int) : Int :=
  if maxBlockSize < 0 ∨ (LZ4_MAX_INPUT_SIZE : Int) < maxBlockSize then 0
  else LZ4_DECODER_RING_BUFFER_SIZE maxBlockSize

/-- Well-formedness of a sequence list relative to the output accumulated
so far (spec sections 3 and 4.3): every match is at least 4 bytes long
and its offset is at least 1, within the 65535-byte window, and no larger
than the history available when the match is expanded. -/
def ValidSeqs : List Nat → List LZSeq → Prop
  | _, [] => True
  | out, s :: rest =>
    4 ≤ s.mlen ∧ 1 ≤ s.off ∧ s.off ≤ out.length + s.lits.length ∧ s.off ≤ 65535 ∧
      ValidSeqs (execSeq out s) rest

/-- Ring-buffer cell lookup (spec section 4.5): `runs` is the list of
completed runs through the ring, most recent first, each run having
written cells `0, 1, ...` up to its recorded length; the head of the list
is the (still growing) current run.  The cell `c` holds the byte of the
most recent run that reached past `c`; the logical index of that byte is
the total number of bytes written by the older runs, plus `c`. -/
def lookupOld : List Nat → Nat → Option Nat
  | [], _ => none
  | w :: older, c => if c < w then some (older.sum + c) else lookupOld older c

/-- Contents of the ring buffer cell `c` when the current run has written
`cur` bytes and the completed previous runs have lengths `ws` (most
recent first): the logical index of the byte held at `c`, or `none` when
no run ever reached `c`. -/
def ringAt (ws : List Nat) (cur c : Nat) : Option Nat :=
  lookupOld (cur :: ws) c

/-- Reachable ring-buffer states for a decoder ring of size `R` fed with
blocks of size at most `B` (lz4.h lines 664-685): blocks are decompressed
next to each other, and when the remaining space falls below the maximum
block size the stream resumes from the beginning of the ring.  A state is
the list of completed run lengths `ws` (most recent first) together with
the number `cur` of bytes written by the current run; intermediate
positions inside a block are reachable because a step may append any
chunk of at most `B` bytes. -/
inductive RingReach (R B : Nat) : List Nat → Nat → Prop
  | init : RingReach R B [] 0
  | step (ws : List Nat) (cur s : Nat) : s ≤ B → cur + B ≤ R →
      RingReach R B ws cur → RingReach R B ws (cur + s)
  | wrap (ws : List Nat) (cur s : Nat) : s ≤ B → R < cur + B →
      RingReach R B ws cur → RingReach R B (cur :: ws) s

/-! ## Basic properties of the building blocks -/

theorem matchCopy_length (off : Nat) :
    ∀ (len : Nat) (hist : List Nat), (matchCopy hist off len).length = hist.length + len := by
  intro len
  induction len with
  | zero => intro hist; simp [matchCopy]
  | succ n ih =>
    intro hist
    simp only [matchCopy, ih]
    simp
    omega

theorem matchCopy_extends (off : Nat) :
    ∀ (len : Nat) (hist : List Nat), ∃ t, matchCopy hist off len = hist ++ t := by
  intro len
  induction len with
  | zero => intro hist; exact ⟨[], by simp [matchCopy]⟩
  | succ n ih =>
    intro hist
    obtain ⟨t, ht⟩ := ih (hist ++ [hist.getD (hist.length - off) 0])
    exact ⟨hist.getD (hist.length - off) 0 :: t,
      by rw [matchCopy, ht, List.append_assoc]; rfl⟩

theorem extBytes_length (k : Nat) : (extBytes k).length = k / 255 + 1 := by
  induction k using Nat.strong_induction_on with
  | _ k ih =>
    rw [extBytes]
    split
    · simp; omega
    · simp only [List.length_cons, ih (k - 255) (by omega)]
      omega

theorem readExt_extBytes (k : Nat) (rest : List Nat) :
    readExt (extBytes k ++ rest) = some (k, rest) := by
  induction k using Nat.strong_induction_on with
  | _ k ih =>
    rw [extBytes]
    split
    · next h =>
      simp [readExt, Nat.ne_of_lt h]
    · next h =>
      have ih2 := ih (k - 255) (by omega)
      have hk : 255 + (k - 255) = k := by omega
      simp [readExt, ih2, hk]

theorem readLen_writeLSIC (k : Nat) (rest : List Nat) :
    readLen (min k 15) (writeLSIC k ++ rest) = some (k, rest) := by
  by_cases h : k < 15
  · simp [readLen, writeLSIC, h, Nat.min_eq_left (le_of_lt h)]
  · have hm : min k 15 = 15 := Nat.min_eq_right (by omega)
    have hk : 15 + (k - 15) = k := by omega
    simp [readLen, writeLSIC, h, hm, readExt_extBytes, hk]

theorem writeLSIC_length (k : Nat) :
    (writeLSIC k).length = if k < 15 then 0 else (k - 15) / 255 + 1 := by
  by_cases h : k < 15
  · simp [writeLSIC, h]
  · simp [writeLSIC, h, extBytes_length]

theorem token_div (a b : Nat) (h : b ≤ 15) : (a * 16 + b) / 16 = a := by omega

theorem token_mod (a b : Nat) (h : b ≤ 15) : (a * 16 + b) % 16 = b := by omega

theorem commonPrefixLen_getD :
    ∀ (a b : List Nat) (i : Nat), i < commonPrefixLen a b →
      a.getD i 0 = b.getD i 0 := by
  intro a
  induction a with
  | nil => intro b i h; simp [commonPrefixLen] at h
  | cons x as ih =>
    intro b i h
    cases b with
    | nil => simp [commonPrefixLen] at h
    | cons y bs =>
      simp only [commonPrefixLen] at h
      by_cases hxy : x = y
      · cases i with
        | zero => simpa [List.getD] using hxy
        | succ j =>
          simp only [if_pos hxy] at h
          simpa [List.getD] using ih bs j (by omega)
      · simp [if_neg hxy] at h

theorem commonPrefixLen_le_length (a b : List Nat) :
    commonPrefixLen a b ≤ b.length := by
  induction a generalizing b with
  | nil => simp [commonPrefixLen]
  | cons x as ih =>
    cases b with
    | nil => simp [commonPrefixLen]
    | cons y bs =>
      simp only [commonPrefixLen]
      split
      · simpa using ih bs
      · simp

theorem getD_drop (l : List Nat) (k i : Nat) :
    (l.drop k).getD i 0 = l.getD (k + i) 0 := by
  simp [List.getD, List.getElem?_drop]

theorem getD_take (l : List Nat) (p i : Nat) (h : i < p) :
    (l.take p).getD i 0 = l.getD i 0 := by
  simp [List.getD, List.getElem?_take, h]

theorem execSeq_length (out : List Nat) (s : LZSeq) :
    (execSeq out s).length = out.length + s.lits.length + s.mlen := by
  simp [execSeq, matchCopy_length]

theorem execSeqs_length (seqs : List LZSeq) :
    ∀ out : List Nat, (execSeqs out seqs).length = out.length + seqsLen seqs := by
  induction seqs with
  | nil => intro out; simp [execSeqs, seqsLen]
  | cons s rest ih =>
    intro out
    simp only [execSeqs, seqsLen, ih, execSeq_length]
    omega

/-! ## The match copy reproduces the source -/

theorem matchCopy_take (src : List Nat) (off : Nat) :
    ∀ (len pos : Nat), 1 ≤ off → off ≤ pos → pos + len ≤ src.length →
      (∀ i, i < len → src.getD (pos + i) 0 = src.getD (pos - off + i) 0) →
      matchCopy (src.take pos) off len = src.take (pos + len) := by
  intro len
  induction len with
  | zero => intro pos _ _ _ _; simp [matchCopy]
  | succ n ih =>
    intro pos h1 h2 h3 heq
    have hpos : pos < src.length := by omega
    have hlen : (src.take pos).length = pos := by
      rw [List.length_take]; omega
    have hb : (src.take pos).getD ((src.take pos).length - off) 0 = src.getD pos 0 := by
      rw [hlen, getD_take src pos (pos - off) (by omega)]
      have h0 := heq 0 (by omega)
      simpa using h0.symm
    have hstep : src.take pos ++ [src.getD pos 0] = src.take (pos + 1) := by
      rw [List.take_succ]
      congr 1
      simp [List.getD, List.getElem?_eq_getElem hpos]
    rw [matchCopy, hb, hstep]
    have := ih (pos + 1) h1 (by omega) (by omega) (by
      intro i hi
      have h2i := heq (i + 1) (by omega)
      have e1 : pos + (i + 1) = pos + 1 + i := by omega
      have e2 : pos - off + (i + 1) = pos + 1 - off + i := by omega
      rw [e1, e2] at h2i
      exact h2i)
    rw [this]
    congr 1
    omega

/-! ## The parser produces well-formed sequences that replay the input -/

theorem parseLoop_spec (src : List Nat) (accel : Nat) :
    ∀ (fuel pos anchor : Nat) (tbl : Nat → Option Nat) (nb : Nat),
      anchor ≤ pos →
      ValidSeqs (src.take anchor) (parseLoop src accel fuel pos anchor tbl nb).1 ∧
      execSeqs (src.take anchor) (parseLoop src accel fuel pos anchor tbl nb).1 ++
        (parseLoop src accel fuel pos anchor tbl nb).2 = src := by
  intro fuel
  induction fuel with
  | zero =>
    intro pos anchor tbl nb _
    refine ⟨by simp [parseLoop, ValidSeqs], ?_⟩
    simp [parseLoop, execSeqs]
  | succ f ih =>
    intro pos anchor tbl nb hap
    by_cases hstop : src.length < pos + 12
    · rw [parseLoop, if_pos hstop]
      exact ⟨by simp [ValidSeqs], by simp [execSeqs]⟩
    · rw [parseLoop, if_neg hstop]
      simp only []
      cases htbl : tbl (hash4 src pos) with
      | none =>
        exact ih (pos + nb / 64) anchor _ (nb + 1) (by omega)
      | some cand =>
        dsimp only
        by_cases hacc : cand < pos ∧ pos - cand ≤ 65535 ∧
            4 ≤ commonPrefixLen (src.drop cand) (src.drop pos)
        · rw [if_pos hacc]
          obtain ⟨hc1, hc2, hc3⟩ := hacc
          simp only []
          set mlen := min (commonPrefixLen (src.drop cand) (src.drop pos))
            (src.length - 5 - pos) with hmlen
          have hm4 : 4 ≤ mlen := by
            rw [hmlen]
            have : 4 ≤ src.length - 5 - pos := by omega
            omega
          have hposn : pos + mlen ≤ src.length := by
            rw [hmlen]; omega
          set s : LZSeq := ⟨(src.drop anchor).take (pos - anchor), pos - cand, mlen⟩
            with hs
          have hlitlen : s.lits.length = pos - anchor := by
            rw [hs]
            simp [List.length_take, List.length_drop]
            omega
          have hexec : execSeq (src.take anchor) s = src.take (pos + mlen) := by
            rw [execSeq, hs]
            simp only []
            have htk : src.take anchor ++ (src.drop anchor).take (pos - anchor) =
                src.take pos := by
              rw [← List.take_add]
              congr 1
              omega
            rw [htk]
            apply matchCopy_take src (pos - cand) mlen pos (by omega) (by omega) hposn
            intro i hi
            have hicpl : i < commonPrefixLen (src.drop cand) (src.drop pos) := by
              rw [hmlen] at hi
              omega
            have := commonPrefixLen_getD (src.drop cand) (src.drop pos) i hicpl
            rw [getD_drop, getD_drop] at this
            have e : pos - (pos - cand) + i = cand + i := by omega
            rw [e]
            exact this.symm
          have hrest := ih (pos + mlen) (pos + mlen)
            (fun x => if x = hash4 src pos then some pos else tbl x) (accel * 64)
            (le_refl _)
          constructor
          · simp only [ValidSeqs]
            refine ⟨hm4, by omega, ?_, by omega, ?_⟩
            · have hanch : (src.take anchor).length = anchor := by
                rw [List.length_take]; omega
              rw [hanch, hlitlen]
              omega
            · rw [hexec]
              exact hrest.1
          · simp only [execSeqs]
            rw [hexec]
            exact hrest.2
        · rw [if_neg hacc]
          exact ih (pos + nb / 64) anchor _ (nb + 1) (by omega)

/-! ## The decoder inverts the serializer on well-formed sequences -/

theorem decode_serAll :
    ∀ (seqs : List LZSeq) (fuel : Nat) (out fin : List Nat) (cap : Nat),
      ValidSeqs out seqs →
      (execSeqs out seqs).length + fin.length ≤ cap →
      seqs.length < fuel →
      decodeLoop fuel (serAll seqs fin) out cap = some (execSeqs out seqs ++ fin) := by
  intro seqs
  induction seqs with
  | nil =>
    intro fuel out fin cap _ hcap hfuel
    cases fuel with
    | zero => omega
    | succ f =>
      rw [serAll, serFinal]
      have ht : (min fin.length 15 * 16) / 16 = min fin.length 15 := by omega
      rw [decodeLoop, ht, readLen_writeLSIC]
      dsimp only
      have hcap2 : ¬ cap < out.length + fin.length := by
        simp only [execSeqs] at hcap
        omega
      rw [if_neg (lt_irrefl fin.length), if_neg hcap2, List.drop_length]
      dsimp only
      rw [List.take_length]
      simp [execSeqs]
  | cons s rest ih =>
    intro fuel out fin cap hvalid hcap hfuel
    cases fuel with
    | zero => omega
    | succ f =>
      obtain ⟨hm4, hoff1, hoffle, hoffw, hrest⟩ := hvalid
      have hexlen : (execSeqs out (s :: rest)).length =
          out.length + (s.lits.length + s.mlen + seqsLen rest) := by
        rw [execSeqs_length]
        rfl
      rw [serAll, serSeq, List.cons_append,
        List.append_assoc (writeLSIC s.lits.length),
        List.append_assoc s.lits,
        List.append_assoc [s.off % 256, s.off / 256]]
      have hb : min (s.mlen - 4) 15 ≤ 15 := min_le_right _ _
      have ht1 : (min s.lits.length 15 * 16 + min (s.mlen - 4) 15) / 16 =
          min s.lits.length 15 := by omega
      have ht2 : (min s.lits.length 15 * 16 + min (s.mlen - 4) 15) % 16 =
          min (s.mlen - 4) 15 := by omega
      rw [decodeLoop, ht1, readLen_writeLSIC]
      dsimp only
      have hr1len : ¬ (s.lits ++ ([s.off % 256, s.off / 256] ++
          (writeLSIC (s.mlen - 4) ++ serAll rest fin))).length < s.lits.length := by
        simp
      rw [if_neg hr1len]
      have hcapg1 : ¬ cap < out.length + s.lits.length := by omega
      rw [if_neg hcapg1, List.take_left, List.drop_left]
      dsimp only [List.cons_append, List.nil_append]
      rw [offsetBytes]
      dsimp only
      have hoffeq : s.off % 256 + 256 * (s.off / 256) = s.off := Nat.mod_add_div s.off 256
      rw [hoffeq]
      rw [if_neg (by omega : ¬ s.off = 0)]
      have hlen2 : (out ++ s.lits).length = out.length + s.lits.length := by simp
      rw [if_neg (by rw [hlen2]; omega : ¬ (out ++ s.lits).length < s.off)]
      rw [ht2, readLen_writeLSIC]
      dsimp only
      have hm : s.mlen - 4 + 4 = s.mlen := by omega
      rw [hm]
      have hcapg2 : ¬ cap < (out ++ s.lits).length + s.mlen := by
        rw [hlen2]
        omega
      rw [if_neg hcapg2]
      have hmc : matchCopy (out ++ s.lits) s.off s.mlen = execSeq out s := rfl
      rw [hmc]
      have hIH := ih f (execSeq out s) fin cap hrest
        (by
          have hx : execSeqs (execSeq out s) rest = execSeqs out (s :: rest) := by
            simp [execSeqs]
          rw [hx]
          omega)
        (by simpa using Nat.lt_of_succ_lt_succ hfuel)
      rw [hIH]
      simp [execSeqs]

/-! ## Worst-case size of the serialization -/

theorem div255_add (a b : Nat) : a / 255 + b / 255 ≤ (a + b) / 255 := by
  rw [Nat.le_div_iff_mul_le (by norm_num : 0 < 255)]
  calc (a / 255 + b / 255) * 255 = a / 255 * 255 + b / 255 * 255 := by ring
    _ ≤ a + b := Nat.add_le_add (Nat.div_mul_le_self a 255) (Nat.div_mul_le_self b 255)

theorem serSeq_length (s : LZSeq) (h : 4 ≤ s.mlen) :
    (serSeq s).length ≤ s.lits.length + s.mlen + s.lits.length / 255 := by
  have h1 := writeLSIC_length s.lits.length
  have h2 := writeLSIC_length (s.mlen - 4)
  simp only [serSeq, List.length_cons, List.length_append, List.length_nil]
  split_ifs at h1 h2 <;> omega

theorem serFinal_length (fin : List Nat) :
    (serFinal fin).length ≤ fin.length + fin.length / 255 + 2 := by
  have h1 := writeLSIC_length fin.length
  simp only [serFinal, List.length_cons, List.length_append]
  split_ifs at h1 <;> omega

theorem validSeqs_mlen :
    ∀ (seqs : List LZSeq) (out : List Nat), ValidSeqs out seqs →
      ∀ s ∈ seqs, 4 ≤ s.mlen := by
  intro seqs
  induction seqs with
  | nil =>
    intro out _ s hs
    simp at hs
  | cons t rest ih =>
    intro out hv s hs
    obtain ⟨h4, _, _, _, hrest⟩ := hv
    rcases List.mem_cons.mp hs with h | h
    · rw [h]; exact h4
    · exact ih (execSeq out t) hrest s h

theorem litsLen_le_seqsLen : ∀ seqs : List LZSeq, litsLen seqs ≤ seqsLen seqs := by
  intro seqs
  induction seqs with
  | nil => simp [litsLen, seqsLen]
  | cons s rest ih => simp only [litsLen, seqsLen]; omega

theorem serAll_length_le :
    ∀ (seqs : List LZSeq) (fin : List Nat),
      (∀ s ∈ seqs, 4 ≤ s.mlen) →
      (serAll seqs fin).length ≤
        seqsLen seqs + fin.length + (litsLen seqs + fin.length) / 255 + 2 := by
  intro seqs
  induction seqs with
  | nil =>
    intro fin _
    simpa [serAll, seqsLen, litsLen] using serFinal_length fin
  | cons s rest ih =>
    intro fin hall
    have h1 := serSeq_length s (hall s (by simp))
    have h2 := ih fin (fun t ht => hall t (by simp [ht]))
    have h3 := div255_add s.lits.length (litsLen rest + fin.length)
    simp only [serAll, List.length_append, seqsLen, litsLen]
    omega

theorem serAll_length_ge :
    ∀ (seqs : List LZSeq) (fin : List Nat), seqs.length ≤ (serAll seqs fin).length := by
  intro seqs
  induction seqs with
  | nil => intro fin; simp
  | cons s rest ih =>
    intro fin
    simp only [serAll, List.length_append, List.length_cons, serSeq, List.length_cons]
    have := ih fin
    omega

/-! ## Compressor-level facts -/

theorem parse_spec (src : List Nat) (accel : Nat) :
    ValidSeqs [] (parse src accel).1 ∧
    execSeqs [] (parse src accel).1 ++ (parse src accel).2 = src := by
  have hps := parseLoop_spec src accel (src.length + 1) 0 0 (fun _ => none) (accel * 64)
    (le_refl 0)
  simpa [parse] using hps

theorem parse_total_length (src : List Nat) (accel : Nat) :
    seqsLen (parse src accel).1 + (parse src accel).2.length = src.length := by
  have h := congrArg List.length (parse_spec src accel).2
  rw [List.length_append, execSeqs_length] at h
  simpa using h

theorem compressedBytes_length_le (src : List Nat) (accel : Nat) :
    (compressedBytes src accel).length ≤ src.length + src.length / 255 + 2 := by
  have hall := validSeqs_mlen (parse src accel).1 [] (parse_spec src accel).1
  have hser := serAll_length_le (parse src accel).1 (parse src accel).2 hall
  have hlen := parse_total_length src accel
  have hlits := litsLen_le_seqsLen (parse src accel).1
  have hdiv : (litsLen (parse src accel).1 + (parse src accel).2.length) / 255 ≤
      src.length / 255 := Nat.div_le_div_right (by omega)
  rw [compressedBytes]
  omega

theorem compressedBytes_length_pos (src : List Nat) (accel : Nat) :
    1 ≤ (compressedBytes src accel).length := by
  rw [compressedBytes]
  cases h : (parse src accel).1 with
  | nil => simp [serAll, serFinal]
  | cons s rest => simp [serAll, serSeq]

/-! ## Safety of the decoder: output never exceeds the destination capacity -/

theorem decodeLoop_some_spec :
    ∀ (fuel : Nat) (src out : List Nat) (cap : Nat) (res : List Nat),
      decodeLoop fuel src out cap = some res →
      res.length ≤ cap ∧ ∃ u, res = out ++ u := by
  intro fuel
  induction fuel with
  | zero =>
    intro src out cap res h
    simp [decodeLoop] at h
  | succ f ih =>
    intro src out cap res h
    cases src with
    | nil => simp [decodeLoop] at h
    | cons t r =>
      rw [decodeLoop] at h
      cases hre : readLen (t / 16) r with
      | none => rw [hre] at h; exact Option.noConfusion h
      | some p =>
        obtain ⟨L, r1⟩ := p
        rw [hre] at h
        dsimp only at h
        by_cases hL : r1.length < L
        · rw [if_pos hL] at h; exact Option.noConfusion h
        rw [if_neg hL] at h
        by_cases hcap1 : cap < out.length + L
        · rw [if_pos hcap1] at h; exact Option.noConfusion h
        rw [if_neg hcap1] at h
        cases hdr : r1.drop L with
        | nil =>
          rw [hdr] at h
          dsimp only at h
          have hres := Option.some.inj h
          subst hres
          constructor
          · simp only [List.length_append, List.length_take]
            omega
          · exact ⟨r1.take L, rfl⟩
        | cons d0 ds =>
          rw [hdr] at h
          dsimp only at h
          cases hob : offsetBytes (d0 :: ds) with
          | none => rw [hob] at h; exact Option.noConfusion h
          | some q =>
            obtain ⟨off, r3⟩ := q
            rw [hob] at h
            dsimp only at h
            by_cases ho0 : off = 0
            · rw [if_pos ho0] at h; exact Option.noConfusion h
            rw [if_neg ho0] at h
            by_cases hh : (out ++ r1.take L).length < off
            · rw [if_pos hh] at h; exact Option.noConfusion h
            rw [if_neg hh] at h
            cases hrm : readLen (t % 16) r3 with
            | none => rw [hrm] at h; exact Option.noConfusion h
            | some q2 =>
              obtain ⟨mc, r4⟩ := q2
              rw [hrm] at h
              dsimp only at h
              by_cases hcap2 : cap < (out ++ r1.take L).length + (mc + 4)
              · rw [if_pos hcap2] at h; exact Option.noConfusion h
              rw [if_neg hcap2] at h
              obtain ⟨hlen, u, hu⟩ := ih _ _ _ _ h
              refine ⟨hlen, ?_⟩
              obtain ⟨t2, ht2⟩ := matchCopy_extends off (mc + 4) (out ++ r1.take L)
              rw [ht2] at hu
              exact ⟨r1.take L ++ (t2 ++ u), by rw [hu]; simp only [List.append_assoc]⟩

/-! ## Partial decoding simulates full decoding up to the target -/

theorem take_append_of_le (l u : List Nat) (n : Nat) (h : n ≤ l.length) :
    (l ++ u).take n = l.take n := by
  rw [List.take_append_eq_append_take, show n - l.length = 0 from by omega]
  simp

theorem partialLoop_sim :
    ∀ (fuel : Nat) (src out : List Nat) (cap : Nat) (res : List Nat) (target : Nat),
      decodeLoop fuel src out cap = some res →
      partialLoop fuel src out target = some (res.take target) := by
  intro fuel
  induction fuel with
  | zero =>
    intro src out cap res target h
    simp [decodeLoop] at h
  | succ f ih =>
    intro src out cap res target h
    cases src with
    | nil => simp [decodeLoop] at h
    | cons t r =>
      rw [decodeLoop] at h
      rw [partialLoop]
      cases hre : readLen (t / 16) r with
      | none => rw [hre] at h; exact Option.noConfusion h
      | some p =>
        obtain ⟨L, r1⟩ := p
        rw [hre] at h
        dsimp only at h ⊢
        by_cases hL : r1.length < L
        · rw [if_pos hL] at h; exact Option.noConfusion h
        rw [if_neg hL] at h
        rw [if_neg hL]
        by_cases hcap1 : cap < out.length + L
        · rw [if_pos hcap1] at h; exact Option.noConfusion h
        rw [if_neg hcap1] at h
        cases hdr : r1.drop L with
        | nil =>
          rw [hdr] at h
          dsimp only at h
          have hres : res = out ++ r1.take L := (Option.some.inj h).symm
          subst hres
          by_cases htg : target ≤ (out ++ r1.take L).length
          · rw [if_pos htg]
          · rw [if_neg htg]
            dsimp only
            rw [List.take_of_length_le (by omega : (out ++ r1.take L).length ≤ target)]
        | cons d0 ds =>
          rw [hdr] at h
          dsimp only at h
          cases hob : offsetBytes (d0 :: ds) with
          | none => rw [hob] at h; exact Option.noConfusion h
          | some q =>
            obtain ⟨off, r3⟩ := q
            rw [hob] at h
            dsimp only at h
            by_cases ho0 : off = 0
            · rw [if_pos ho0] at h; exact Option.noConfusion h
            rw [if_neg ho0] at h
            by_cases hh : (out ++ r1.take L).length < off
            · rw [if_pos hh] at h; exact Option.noConfusion h
            rw [if_neg hh] at h
            cases hrm : readLen (t % 16) r3 with
            | none => rw [hrm] at h; exact Option.noConfusion h
            | some q2 =>
              obtain ⟨mc, r4⟩ := q2
              rw [hrm] at h
              dsimp only at h
              by_cases hcap2 : cap < (out ++ r1.take L).length + (mc + 4)
              · rw [if_pos hcap2] at h; exact Option.noConfusion h
              rw [if_neg hcap2] at h
              obtain ⟨_, u, hu⟩ := decodeLoop_some_spec f r4
                (matchCopy (out ++ r1.take L) off (mc + 4)) cap res h
              have hMClen : (matchCopy (out ++ r1.take L) off (mc + 4)).length =
                  (out ++ r1.take L).length + (mc + 4) := matchCopy_length off (mc + 4) _
              by_cases htg : target ≤ (out ++ r1.take L).length
              · rw [if_pos htg]
                obtain ⟨t2, ht2⟩ := matchCopy_extends off (mc + 4) (out ++ r1.take L)
                rw [ht2, List.append_assoc] at hu
                rw [hu, take_append_of_le _ _ _ htg]
              · rw [if_neg htg]
                dsimp only
                rw [hob]
                dsimp only
                rw [if_neg ho0, if_neg hh, hrm]
                dsimp only
                by_cases htg2 : target ≤ (out ++ r1.take L).length + (mc + 4)
                · rw [if_pos htg2]
                  rw [hu, take_append_of_le _ _ _ (show target ≤
                    (matchCopy (out ++ r1.take L) off (mc + 4)).length from by
                      rw [hMClen]; exact htg2)]
                · rw [if_neg htg2]
                  exact ih r4 (matchCopy (out ++ r1.take L) off (mc + 4)) cap res target h

/-! ## Malformed sequences are rejected -/

theorem decodeLoop_malformed :
    ∀ (fuel : Nat) (src out : List Nat) (cap : Nat),
      stepMalformedB src out cap = true →
      decodeLoop fuel src out cap = none := by
  intro fuel src out cap hmal
  cases fuel with
  | zero => rfl
  | succ f =>
    cases src with
    | nil => simp [stepMalformedB] at hmal
    | cons t r =>
      rw [stepMalformedB] at hmal
      rw [decodeLoop]
      cases hre : readLen (t / 16) r with
      | none => rfl
      | some p =>
        obtain ⟨L, r1⟩ := p
        rw [hre] at hmal
        dsimp only at hmal ⊢
        by_cases hL : r1.length < L
        · rw [if_pos hL]
        · rw [if_neg hL] at hmal ⊢
          by_cases hcap1 : cap < out.length + L
          · rw [if_pos hcap1]
          · rw [if_neg hcap1] at hmal ⊢
            cases hdr : r1.drop L with
            | nil =>
              rw [hdr] at hmal
              simp at hmal
            | cons d0 ds =>
              rw [hdr] at hmal
              dsimp only at hmal ⊢
              cases hob : offsetBytes (d0 :: ds) with
              | none => rfl
              | some q =>
                obtain ⟨off, r3⟩ := q
                rw [hob] at hmal
                dsimp only at hmal ⊢
                by_cases ho0 : off = 0
                · rw [if_pos ho0]
                · rw [if_neg ho0] at hmal ⊢
                  have hlen : (out ++ r1.take L).length = out.length + L := by
                    simp only [List.length_append, List.length_take]
                    omega
                  by_cases hh : out.length + L < off
                  · rw [if_pos (by rw [hlen]; exact hh)]
                  · rw [if_neg hh] at hmal
                    rw [if_neg (by rw [hlen]; exact hh)]
                    cases hrm : readLen (t % 16) r3 with
                    | none => rfl
                    | some q2 =>
                      obtain ⟨mc, r4⟩ := q2
                      rw [hrm] at hmal
                      dsimp only at hmal ⊢
                      have hc2 : cap < out.length + L + (mc + 4) := of_decide_eq_true hmal
                      rw [if_pos (by rw [hlen]; omega)]

/-! ## Ring buffer: the last 64KB of the logical stream is always present -/

theorem lookupOld_range :
    ∀ (ws : List Nat) (c x : Nat), lookupOld ws c = some x → x < ws.sum := by
  intro ws
  induction ws with
  | nil => intro c x h; simp [lookupOld] at h
  | cons w older ih =>
    intro c x h
    rw [lookupOld] at h
    by_cases hc : c < w
    · rw [if_pos hc] at h
      have := Option.some.inj h
      simp only [List.sum_cons]
      omega
    · rw [if_neg hc] at h
      have := ih c x h
      simp only [List.sum_cons]
      omega

theorem ring_presence (ws : List Nat) (cur x : Nat)
    (hw : ∀ w ∈ ws, 65550 < w)
    (hlow : ws.sum + cur ≤ x + 65536) (hhigh : x < ws.sum + cur) :
    ∃ c, ringAt ws cur c = some x ∧ (c < cur ∨ ∃ w ∈ ws, c < w) := by
  cases ws with
  | nil =>
    simp only [List.sum_nil, Nat.zero_add] at hlow hhigh
    refine ⟨x, ?_, Or.inl hhigh⟩
    rw [ringAt, lookupOld, if_pos hhigh]
    simp
  | cons w older =>
    by_cases hxc : (w :: older).sum ≤ x
    · refine ⟨x - (w :: older).sum, ?_, Or.inl (by omega)⟩
      rw [ringAt, lookupOld, if_pos (by omega)]
      congr 1
      omega
    · have hw65 : 65550 < w := hw w (by simp)
      have hsum : (w :: older).sum = w + older.sum := List.sum_cons
      have hxo : older.sum ≤ x := by omega
      refine ⟨x - older.sum, ?_, Or.inr ⟨w, by simp, by omega⟩⟩
      rw [ringAt, lookupOld, if_neg (by omega), lookupOld, if_pos (by omega)]
      congr 1
      omega

theorem ringReach_inv (R B : Nat) (hRB : 65550 + B ≤ R) :
    ∀ (ws : List Nat) (cur : Nat), RingReach R B ws cur →
      cur ≤ R ∧ ∀ w ∈ ws, 65550 < w ∧ w ≤ R := by
  intro ws cur h
  induction h with
  | init => simp
  | step ws cur s hs hcur _ ih => exact ⟨by omega, ih.2⟩
  | wrap ws cur s hs hcur _ ih =>
    refine ⟨by omega, ?_⟩
    intro w hwmem
    rcases List.mem_cons.mp hwmem with heq | hmem
    · subst heq
      exact ⟨by omega, ih.1⟩
    · exact ih.2 w hmem

/-! ## Helpers for the API-level theorems -/

theorem clampAccel_toNat_one : (clampAccel 1).toNat = 1 := rfl

theorem clampAccel_idem (a : Int) : clampAccel (clampAccel a) = clampAccel a := by
  unfold clampAccel LZ4_ACCELERATION_DEFAULT LZ4_ACCELERATION_MAX
  split_ifs <;> omega

theorem compressBound_natCast (n : Nat) (h : n ≤ LZ4_MAX_INPUT_SIZE) :
    LZ4_compressBound (n : Int) = ((n + n / 255 + 16 : Nat) : Int) := by
  have hM : LZ4_MAX_INPUT_SIZE = 2113929216 := rfl
  unfold LZ4_compressBound LZ4_COMPRESSBOUND
  rw [if_neg (by omega)]
  push_cast [Int.ofNat_ediv]
  ring

theorem compress_default_eq (S : List Nat) (C : Nat)
    (hmax : S.length ≤ LZ4_MAX_INPUT_SIZE)
    (hC : S.length + S.length / 255 + 16 ≤ C) :
    LZ4_compress_default S C = some (compressedBytes S 1) := by
  have hsize := compressedBytes_length_le S 1
  unfold LZ4_compress_default LZ4_compress_fast
  rw [clampAccel_toNat_one, if_neg (by omega), if_pos (by omega)]

theorem decompress_compressedBytes (S : List Nat) (D : Nat) (accel : Nat)
    (hD : S.length ≤ D) :
    LZ4_decompress_safe (compressedBytes S accel) (compressedBytes S accel).length D =
      some S := by
  have hps := parse_spec S accel
  have hlen := parse_total_length S accel
  have hcap : (execSeqs [] (parse S accel).1).length + (parse S accel).2.length ≤ D := by
    rw [execSeqs_length]
    simp only [List.length_nil]
    omega
  have hfuel : (parse S accel).1.length <
      (serAll (parse S accel).1 (parse S accel).2).length + 1 := by
    have := serAll_length_ge (parse S accel).1 (parse S accel).2
    omega
  have hdec := decode_serAll (parse S accel).1
    ((serAll (parse S accel).1 (parse S accel).2).length + 1)
    [] (parse S accel).2 D hps.1 hcap hfuel
  have hcb : compressedBytes S accel = serAll (parse S accel).1 (parse S accel).2 := rfl
  unfold LZ4_decompress_safe
  rw [List.take_length, hcb, hdec, hps.2]

/-! ## Claim-level theorems -/

/-- Claim C1 (amended with the input-size bound of lz4.h): for every byte
sequence `S` with `S.length ≤ LZ4_MAX_INPUT_SIZE` and every capacity `C`
at least `LZ4_compressBound` of the length, compressing with
`LZ4_compress_default` succeeds and decompressing the resulting block
with `LZ4_decompress_safe`, supplying the block's compressed size and any
destination capacity of at least `S.length`, yields exactly `S`. -/
theorem lz4_roundTrip (S : List Nat) (C D : Nat)
    (hmax : S.length ≤ LZ4_MAX_INPUT_SIZE)
    (hC : LZ4_compressBound (S.length : Int) ≤ (C : Int))
    (hD : S.length ≤ D) :
    ∃ out, LZ4_compress_default S C = some out ∧
      LZ4_decompress_safe out out.length D = some S := by
  rw [compressBound_natCast S.length hmax] at hC
  have hCn : S.length + S.length / 255 + 16 ≤ C := by exact_mod_cast hC
  exact ⟨compressedBytes S 1, compress_default_eq S C hmax hCn,
    decompress_compressedBytes S D 1 hD⟩

/-- Claim C1, counterexample to the unamended statement: for the input
`List.replicate 2113929217 0` (one byte above `LZ4_MAX_INPUT_SIZE`) the
capacity 0 satisfies `C ≥ compressBound (len S)` because the bound
collapses to 0, yet compression fails (the header caps `srcSize` at
`LZ4_MAX_INPUT_SIZE`, and no 1-byte-or-more block fits a 0-byte
destination), so the round trip cannot yield `S`. -/
theorem lz4_roundTrip_counterexample :
    LZ4_compressBound ((List.replicate 2113929217 0).length : Int) ≤ ((0 : Nat) : Int) ∧
    ¬ ∃ out, LZ4_compress_default (List.replicate 2113929217 0) 0 = some out ∧
        LZ4_decompress_safe out out.length 2113929217 =
          some (List.replicate 2113929217 0) := by
  constructor
  · rw [List.length_replicate]
    unfold LZ4_compressBound LZ4_COMPRESSBOUND
    rw [if_pos (by decide)]
    simp
  · rintro ⟨out, hco, _⟩
    unfold LZ4_compress_default LZ4_compress_fast at hco
    rw [if_pos (by rw [List.length_replicate]; decide)] at hco
    exact Option.noConfusion hco

/-- Claim C1 witness at a concrete input. -/
theorem lz4_roundTrip_witness :
    ∃ out, LZ4_compress_default [1, 2, 3] 20 = some out ∧
      LZ4_decompress_safe out out.length 3 = some [1, 2, 3] :=
  lz4_roundTrip [1, 2, 3] 20 3 (by decide) (by decide) (by decide)

/-- Claim C2: for every source contents (including corrupted data), every
compressed size and every destination capacity, the output of
`LZ4_decompress_safe` never exceeds the first `dstCapacity` bytes of the
destination, and the result depends only on the first `compressedSize`
bytes of the source (the model returns no partial output on failure, so
failed calls write nothing).  In the byte-list model the second conjunct
is the exact meaning of never reading beyond the source bound. -/
theorem lz4_decompress_safe_bounds :
    (∀ (src : List Nat) (compressedSize dstCapacity : Nat) (out : List Nat),
        LZ4_decompress_safe src compressedSize dstCapacity = some out →
        out.length ≤ dstCapacity) ∧
    (∀ (src src2 : List Nat) (compressedSize dstCapacity : Nat),
        src.take compressedSize = src2.take compressedSize →
        LZ4_decompress_safe src compressedSize dstCapacity =
          LZ4_decompress_safe src2 compressedSize dstCapacity) := by
  constructor
  · intro src cs cap out h
    exact (decodeLoop_some_spec (cs + 1) (src.take cs) [] cap out h).1
  · intro src src2 cs cap h
    unfold LZ4_decompress_safe
    rw [h]

/-- Claim C2 witness at a concrete input. -/
theorem lz4_decompress_safe_bounds_witness : ([1, 2, 3] : List Nat).length ≤ 3 :=
  lz4_decompress_safe_bounds.1 [48, 1, 2, 3] 4 3 [1, 2, 3] (by decide)

/-- Claim C3: whenever the decoder meets one of the impossible-token
conditions of `stepMalformedB` -- a length extension, literal run or
offset field implying more bytes than remain in the source, a match
offset of 0, an offset exceeding the available history, or a copy that
would exceed the destination capacity -- it returns the failure result
(`none`, the negative sentinel) at once; in this pure model a failing
call delivers no output at all, so nothing is written beyond the point of
detection.  Stated both for the decoding loop in any state and for the
entry point `LZ4_decompress_safe`. -/
theorem lz4_decompress_safe_malformed :
    (∀ (fuel : Nat) (src out : List Nat) (cap : Nat),
        stepMalformedB src out cap = true → decodeLoop fuel src out cap = none) ∧
    (∀ (src : List Nat) (compressedSize dstCapacity : Nat),
        stepMalformedB (src.take compressedSize) [] dstCapacity = true →
        LZ4_decompress_safe src compressedSize dstCapacity = none) := by
  refine ⟨decodeLoop_malformed, ?_⟩
  intro src cs cap h
  exact decodeLoop_malformed (cs + 1) (src.take cs) [] cap h

/-- Claim C3 witness: a block whose only sequence carries offset 0 is
rejected. -/
theorem lz4_decompress_safe_malformed_witness :
    LZ4_decompress_safe [16, 42, 0, 0] 4 10 = none :=
  lz4_decompress_safe_malformed.2 [16, 42, 0, 0] 4 10 (by decide)

/-- Claim C4: for every byte sequence of length at most
`LZ4_MAX_INPUT_SIZE`, compression with a destination capacity of at least
`LZ4_compressBound` of the length is guaranteed to succeed
(`LZ4_compress_default` returns a positive byte count), and the number of
compressed bytes written is at most `LZ4_compressBound` of the length. -/
theorem lz4_compressBound_is_bound (S : List Nat) (C : Nat)
    (hmax : S.length ≤ LZ4_MAX_INPUT_SIZE)
    (hC : LZ4_compressBound (S.length : Int) ≤ (C : Int)) :
    ∃ out, LZ4_compress_default S C = some out ∧ 0 < out.length ∧
      (out.length : Int) ≤ LZ4_compressBound (S.length : Int) := by
  rw [compressBound_natCast S.length hmax] at hC ⊢
  have hCn : S.length + S.length / 255 + 16 ≤ C := by exact_mod_cast hC
  refine ⟨compressedBytes S 1, compress_default_eq S C hmax hCn,
    compressedBytes_length_pos S 1, ?_⟩
  have := compressedBytes_length_le S 1
  exact_mod_cast (by omega : (compressedBytes S 1).length ≤
    S.length + S.length / 255 + 16)

/-- Claim C4 witness at a concrete input. -/
theorem lz4_compressBound_is_bound_witness :
    ∃ out, LZ4_compress_default [7, 8, 9, 10] 25 = some out ∧ 0 < out.length ∧
      (out.length : Int) ≤ LZ4_compressBound (([7, 8, 9, 10] : List Nat).length : Int) :=
  lz4_compressBound_is_bound [7, 8, 9, 10] 25 (by decide) (by decide)

/-- Claim C5 (amended with the validity range of the macro's own guard):
for every input size `n` with `0 ≤ n ≤ LZ4_MAX_INPUT_SIZE`, the macro
`LZ4_COMPRESSBOUND` and the function `LZ4_compressBound` both equal
`n + n / 255 + 16` with integer division. -/
theorem lz4_compressBound_formula (n : Int) (h0 : 0 ≤ n)
    (h1 : n ≤ (LZ4_MAX_INPUT_SIZE : Int)) :
    LZ4_COMPRESSBOUND n = n + n / 255 + 16 ∧
    LZ4_compressBound n = n + n / 255 + 16 := by
  have hM : ((LZ4_MAX_INPUT_SIZE : Nat) : Int) = 2113929216 := rfl
  have hmac : LZ4_COMPRESSBOUND n = n + n / 255 + 16 := by
    unfold LZ4_COMPRESSBOUND
    rw [if_neg (by omega)]
  exact ⟨hmac, hmac⟩

/-- Claim C5, counterexample to the unamended statement: at the input
size `LZ4_MAX_INPUT_SIZE + 1 = 2113929217` the macro (lz4.h line 246)
returns 0, not the formula value. -/
theorem lz4_compressBound_formula_counterexample :
    LZ4_COMPRESSBOUND 2113929217 = 0 ∧ LZ4_compressBound 2113929217 = 0 ∧
    (2113929217 : Int) + 2113929217 / 255 + 16 ≠ 0 :=
  ⟨by decide, by decide, by decide⟩

/-- Claim C5 witness at a concrete input. -/
theorem lz4_compressBound_formula_witness :
    LZ4_COMPRESSBOUND 1000 = 1000 + 1000 / 255 + 16 ∧
    LZ4_compressBound 1000 = 1000 + 1000 / 255 + 16 :=
  lz4_compressBound_formula 1000 (by decide) (by decide)

/-- Claim C6: whenever the destination capacity is smaller than the
encoded block, `LZ4_compress_default` aborts and reports failure (`none`
models the zero return); in this pure model a failed call produces no
output at all, which is the strongest form of undefined destination
contents and of never partially succeeding. -/
theorem lz4_compress_too_small (S : List Nat) (dstCapacity : Nat)
    (h : dstCapacity < (compressedBytes S 1).length) :
    LZ4_compress_default S dstCapacity = none := by
  unfold LZ4_compress_default LZ4_compress_fast
  rw [clampAccel_toNat_one]
  split_ifs with h1 h2
  · rfl
  · omega
  · rfl

/-- Claim C6 witness at a concrete input. -/
theorem lz4_compress_too_small_witness :
    LZ4_compress_default [5, 6, 7] 1 = none :=
  lz4_compress_too_small [5, 6, 7] 1 (by decide)

/-- Claim C7: for every valid `maxBlockSize` (non-negative and at most
`LZ4_MAX_INPUT_SIZE`), `LZ4_decoderRingBufferSize` equals
`65536 + 14 + maxBlockSize`, the value of the macro
`LZ4_DECODER_RING_BUFFER_SIZE`; and a ring of size at least that value
suffices to decode a compliant block stream without manual history
management: in every ring state reachable by placing blocks of at most
`maxBlockSize` bytes next to each other and wrapping when the remaining
space falls below `maxBlockSize`, every byte of the last 65536 logical
bytes (hence anything a 65535-bounded match offset can reference) is
still present in some ring cell below the ring size. -/
theorem lz4_decoderRingBufferSize_spec :
    (∀ m : Int, 0 ≤ m → m ≤ (LZ4_MAX_INPUT_SIZE : Int) →
        LZ4_decoderRingBufferSize m = 65536 + 14 + m ∧
        LZ4_decoderRingBufferSize m = LZ4_DECODER_RING_BUFFER_SIZE m) ∧
    (∀ (B R : Nat), 65536 + 14 + B ≤ R →
        ∀ (ws : List Nat) (cur : Nat), RingReach R B ws cur →
          ∀ x : Nat, ws.sum + cur ≤ x + 65536 → x < ws.sum + cur →
            ∃ c, c < R ∧ ringAt ws cur c = some x) := by
  constructor
  · intro m h0 h1
    have hM : ((LZ4_MAX_INPUT_SIZE : Nat) : Int) = 2113929216 := rfl
    have heq : LZ4_decoderRingBufferSize m = LZ4_DECODER_RING_BUFFER_SIZE m := by
      unfold LZ4_decoderRingBufferSize
      rw [if_neg (by omega)]
    exact ⟨by rw [heq]; rfl, heq⟩
  · intro B R hR ws cur hreach x hlow hhigh
    have hinv := ringReach_inv R B (by omega) ws cur hreach
    have hw : ∀ w ∈ ws, 65550 < w := fun w hwm => (hinv.2 w hwm).1
    obtain ⟨c, hc1, hc2⟩ := ring_presence ws cur x hw hlow hhigh
    refine ⟨c, ?_, hc1⟩
    rcases hc2 with hlt | ⟨w, hwm, hcw⟩
    · have := hinv.1
      omega
    · have := (hinv.2 w hwm).2
      omega

/-- Claim C7 witness at a concrete state. -/
theorem lz4_decoderRingBufferSize_witness :
    (LZ4_decoderRingBufferSize 100 = 65536 + 14 + 100 ∧
      LZ4_decoderRingBufferSize 100 = LZ4_DECODER_RING_BUFFER_SIZE 100) ∧
    ∃ c, c < 65650 ∧ ringAt [] 50 c = some 30 :=
  ⟨lz4_decoderRingBufferSize_spec.1 100 (by decide) (by decide),
    lz4_decoderRingBufferSize_spec.2 100 65650 (by decide) [] 50
      (RingReach.step [] 0 50 (by decide) (by decide) RingReach.init) 30
      (by decide) (by decide)⟩

/-- Claim C8: `LZ4_compress_fast` with any acceleration behaves
identically to `LZ4_compress_fast` with the clamped acceleration, where
the clamp maps every value below 1 (i.e. `≤ 0`) to
`LZ4_ACCELERATION_DEFAULT = 1` and saturates every value above
`LZ4_ACCELERATION_MAX = 65537` at that cap; and acceleration 1 gives
exactly `LZ4_compress_default`. -/
theorem lz4_compress_fast_clamp (src : List Nat) (dstCapacity : Nat) (a : Int) :
    LZ4_compress_fast src dstCapacity a =
      LZ4_compress_fast src dstCapacity (clampAccel a) ∧
    LZ4_compress_fast src dstCapacity 1 = LZ4_compress_default src dstCapacity ∧
    clampAccel a = (if a ≤ 0 then 1 else if 65537 < a then 65537 else a) := by
  refine ⟨?_, rfl, ?_⟩
  · unfold LZ4_compress_fast
    rw [clampAccel_idem]
  · unfold clampAccel LZ4_ACCELERATION_DEFAULT LZ4_ACCELERATION_MAX
    split_ifs <;> omega

/-- Claim C9: for every C-int input size that is negative or greater than
`LZ4_MAX_INPUT_SIZE`, both the macro `LZ4_COMPRESSBOUND` and
`LZ4_compressBound` return 0 rather than the formula value. -/
theorem lz4_compressBound_invalid (n : Int)
    (hlo : -2147483648 ≤ n) (hhi : n < 2147483648)
    (h : n < 0 ∨ (LZ4_MAX_INPUT_SIZE : Int) < n) :
    LZ4_COMPRESSBOUND n = 0 ∧ LZ4_compressBound n = 0 := by
  have hM : ((LZ4_MAX_INPUT_SIZE : Nat) : Int) = 2113929216 := rfl
  have hmac : LZ4_COMPRESSBOUND n = 0 := by
    unfold LZ4_COMPRESSBOUND
    rw [if_pos (by omega)]
  exact ⟨hmac, hmac⟩

/-- Claim C9 witness at a concrete input. -/
theorem lz4_compressBound_invalid_witness :
    LZ4_COMPRESSBOUND (-1) = 0 ∧ LZ4_compressBound (-1) = 0 :=
  lz4_compressBound_invalid (-1) (by decide) (by decide) (Or.inl (by decide))

/-- Claim C10: for every valid block whose exact compressed size is
passed as `srcSize` (validity meaning `LZ4_decompress_safe` fully decodes
it), and every `targetOutputSize ≤ dstCapacity`, including targets larger
than the decompressed size, partial decoding succeeds, produces exactly
the first `min targetOutputSize (decompressed size)` bytes, and never
writes beyond `targetOutputSize`. -/
theorem lz4_decompress_partial_spec (src full : List Nat) (cap capP target : Nat)
    (h : LZ4_decompress_safe src src.length cap = some full)
    (ht : target ≤ capP) :
    LZ4_decompress_safe_partial src src.length target capP =
      some (full.take target) ∧
    (full.take target).length = min target full.length := by
  constructor
  · unfold LZ4_decompress_safe at h
    unfold LZ4_decompress_safe_partial
    rw [Nat.min_eq_left ht]
    exact partialLoop_sim (src.length + 1) (src.take src.length) [] cap full target h
  · simp [List.length_take]

/-- Claim C10 witness at a concrete input. -/
theorem lz4_decompress_partial_witness :
    LZ4_decompress_safe_partial [48, 1, 2, 3] 4 2 5 = some ([1, 2, 3].take 2) ∧
    ([1, 2, 3].take 2).length = min 2 ([1, 2, 3] : List Nat).length :=
  lz4_decompress_partial_spec [48, 1, 2, 3] [1, 2, 3] 10 5 2 (by decide) (by decide)
